import Mathlib

/-!
Verification of the js13k build-plugin pipeline.

This file gives a shallow embedding of the bespoke logic of the repository:

* `addDefaultValues` / `isObject` (src/utils.ts): the recursive
  default-value merge over JavaScript configuration values,
* the ECT plugin's HTML-first file ordering (the `.sort` comparator),
* the advzip plugin's `index.zip` precondition check (closure.ts variant),
* the roadroller plugin: `findBySuffix` asset lookup, the CSS/JS
  embedding transform with its regex-based tag splicing (`embedCss`,
  `embedJs`), and the bundle mutations,
* `readAllFiles`: the fault-tolerant recursive directory walker.

JavaScript values are modelled by the inductive type `Value`: primitives
are opaque (`Value.prim`), and both plain objects and arrays are
key/value entry lists (`Value.obj`, with a flag marking arrays), exactly
as they behave under `Object.entries`, property get and property set --
the three operations the merge uses.  External tools (html minifier,
CleanCSS, roadroller packer, the ect/advzip binaries, the filesystem)
are parameters: they are out of scope per the spec and are treated as
opaque functions.
-/

/-- Model of a JavaScript value as seen by `addDefaultValues`:
`undefined` is `undefined`; `prim` is any non-object primitive
(number, string, boolean, `null`, ...), opaque because the merge never
inspects primitives; `obj isArr entries` is an object (`isArr = false`)
or an array (`isArr = true`) with its enumerable entries in insertion
order, as produced by `Object.entries`. -/
inductive Value where
  | undefined : Value
  | prim : Nat → Value
  | obj : Bool → List (String × Value) → Value

/-- Embedding of `isObject` (src/utils.ts line 35): `!!item && typeof
item === "object"`.  Note that JavaScript arrays satisfy
`typeof item === "object"`, so arrays count as objects here; `null` and
all other primitives do not. -/
def isObject : Value → Bool
  | .obj _ _ => true
  | _ => false

/-- Test for `x === undefined`. -/
def isUndef : Value → Bool
  | .undefined => true
  | _ => false

/-- Test for `Array.isArray(x)` (used only in claim statements; the
source never calls it). -/
def isArrayV : Value → Bool
  | .obj b _ => b
  | _ => false

/-- Property read on an entry list: first entry with the key, else
`undefined`. -/
def getKey (k : String) : List (String × Value) → Value
  | [] => .undefined
  | e :: es => if e.1 = k then e.2 else getKey k es

/-- Property write on an entry list: replace the first entry with the
key, or append a new entry (JavaScript property creation order). -/
def setKey (k : String) (v : Value) : List (String × Value) → List (String × Value)
  | [] => [(k, v)]
  | e :: es => if e.1 = k then (k, v) :: es else e :: setKey k v es

/-- `a[k]` on a value: `undefined` unless `a` is an object/array. -/
def getVal : Value → String → Value
  | .obj _ es, k => getKey k es
  | _, _ => .undefined

/-- `a[k] = v` on a value: a no-op unless `a` is an object/array
(assignments to primitives are silently ignored). -/
def setVal : Value → String → Value → Value
  | .obj b es, k, v => .obj b (setKey k v es)
  | a, _, _ => a

mutual
/-- Embedding of `addDefaultValues` (src/utils.ts lines 18-33):

```
if (!a) { return b; }
for (const [k, v] of Object.entries(b)) {
  if (a[k] === undefined) { a[k] = v; }
  else if (isObject(v) && isObject(a[k])) { a[k] = addDefaultValues(a[k], v); }
}
return a;
```

The in-place mutation of `a` becomes explicit state passing through the
entry loop `mergeEntries`.  In the source `a` is typed `T | undefined`,
so the falsiness test `!a` is the `undefined` test; `b` is always an
object, and `Object.entries` of a non-object (unreachable) is `[]`,
which the catch-all final row models by returning `a` unchanged. -/
def addDefaultValues : Value → Value → Value
  | .undefined, b => b
  | a, .obj _ bs => mergeEntries a bs
  | a, _ => a
termination_by structural _ b => b

/-- The `for (const [k, v] of Object.entries(b))` loop body of
`addDefaultValues`, threading the mutated base object. -/
def mergeEntries : Value → List (String × Value) → Value
  | a, [] => a
  | a, (k, v) :: rest =>
      mergeEntries
        (if isUndef (getVal a k) then setVal a k v
         else if isObject v && isObject (getVal a k) then
           setVal a k (addDefaultValues (getVal a k) v)
         else a)
        rest
termination_by structural _ bs => bs
end

/-- One iteration of the `addDefaultValues` loop at key `k` with
default value `v` (a named form of the loop body, used by the lemmas). -/
def stepOne (a : Value) (k : String) (v : Value) : Value :=
  if isUndef (getVal a k) then setVal a k v
  else if isObject v && isObject (getVal a k) then
    setVal a k (addDefaultValues (getVal a k) v)
  else a

/-- Does the entry list contain the key? -/
def hasKey (k : String) : List (String × Value) → Bool
  | [] => false
  | e :: es => (e.1 = k) || hasKey k es

/-- `k in a` for the value model. -/
def hasVal : Value → String → Bool
  | .obj _ es, k => hasKey k es
  | _, _ => false

/-- Keys of an entry list are pairwise distinct (JavaScript objects
cannot carry duplicate keys, so every value reachable in the program
satisfies this at every level). -/
def nodupKeys : List (String × Value) → Bool
  | [] => true
  | e :: es => !hasKey e.1 es && nodupKeys es

mutual
/-- Well-formedness of a value as a JavaScript object graph: no
duplicate keys at any nesting level. -/
def nodupDeep : Value → Bool
  | .obj _ es => nodupKeys es && nodupDeepList es
  | _ => true
termination_by structural v => v

/-- `nodupDeep` for every value of an entry list. -/
def nodupDeepList : List (String × Value) → Bool
  | [] => true
  | e :: es => nodupDeep e.2 && nodupDeepList es
termination_by structural es => es
end

/-- `nodupKeys` at the top level of a value only. -/
def topNodup : Value → Bool
  | .obj _ es => nodupKeys es
  | _ => true

/-- Iterated property read along a path of keys (`u[k1][k2]...`). -/
def deepGet : Value → List String → Value
  | v, [] => v
  | v, k :: rest => deepGet (getVal v k) rest

/-! ## ECT plugin: HTML-first archive input ordering -/

/-- Model of JavaScript `String.prototype.endsWith` on the character
list underlying a string. -/
def jsEndsWith (s suffix : String) : Bool :=
  List.isSuffixOf suffix.data s.data

/-- The ECT plugin's sort comparator (part_002 line 439 / line 558):
`(a) => (a.endsWith('.html') ? -1 : 1)` -- the second argument is
ignored by the source lambda. -/
def ectComparator (a : String) (_b : String) : Int :=
  if jsEndsWith a ".html" then -1 else 1

/-- Insertion step of `Array.prototype.sort` (V8 TimSort binary
insertion over the already-placed prefix): the pivot is inserted before
the first element it compares less than.  For comparators whose result
depends only on the pivot -- such as `ectComparator` -- this linear scan
computes exactly the position V8's binary search finds. -/
def binaryInsert (cmp : String → String → Int) (x : String) : List String → List String
  | [] => [x]
  | y :: ys => if cmp x y < 0 then x :: y :: ys else y :: binaryInsert cmp x ys

/-- Model of `files.sort(cmp)`: elements are taken left to right and
each is inserted into the sorted prefix by `binaryInsert`. -/
def jsSort (cmp : String → String → Int) (l : List String) : List String :=
  l.foldl (fun acc x => binaryInsert cmp x acc) []

/-! ## advzip plugin (closure.ts variant, `js13k:advzip`) -/

/-- `shrinkLevel` option: numeric `0 | 1 | 2 | 3 | 4` or a named level
such as `"insane"`. -/
inductive ShrinkLevelM where
  | num : Nat → ShrinkLevelM
  | named : String → ShrinkLevelM

/-- Resolved `AdvzipOptions` (absent `pedantic` behaves as `false`). -/
structure AdvzipOptionsM where
  pedantic : Bool
  shrinkLevel : Option ShrinkLevelM

/-- The argument list the advzip plugin builds for the recompressor
binary, before appending the zip path:
`['--recompress']`, then `--pedantic` when set, then `-N` for a numeric
shrink level or `--shrink-NAME` for a named one. -/
def advzipArgs (o : AdvzipOptionsM) : List String :=
  ["--recompress"]
    ++ (if o.pedantic then ["--pedantic"] else [])
    ++ (match o.shrinkLevel with
        | some (.num n) => ["-" ++ toString n]
        | some (.named s) => ["--shrink-" ++ s]
        | none => [])

/-- Embedding of the `closeBundle` handler of `advzipPlugin`
(closure.ts lines 158-193).  The filesystem is the oracle
`existsSync`; the external recompressor is not run by the model, so the
handler returns the full argument vector of the one `execFileAsync`
invocation it would perform (`Except.ok`), or the error thrown before
any invocation when `index.zip` is absent (`Except.error`). -/
def advzipCloseBundle (existsSync : String → Bool) (outDir : String)
    (o : AdvzipOptionsM) : Except String (List String) :=
  let zipPath := outDir ++ "/index.zip"
  if existsSync zipPath then
    Except.ok (advzipArgs o ++ [zipPath])
  else
    Except.error "advzip requires ECT plugin to run first - no index.zip found"

/-! ## Roadroller plugin: asset lookup, tag splicing, embedding -/

/-- The bundle-key lookup of the roadroller transform (part_002 lines
636 and 644): `bundleKeys.find((key) => key.endsWith(suffix))`. -/
def findBySuffix (keys : List String) (suffix : String) : Option String :=
  keys.find? (fun key => jsEndsWith key suffix)

/-- Consume a literal character sequence from the front of the input,
returning the rest. -/
def dropLit : List Char → List Char → Option (List Char)
  | [], s => some s
  | _ :: _, [] => none
  | p :: ps, c :: cs => if p = c then dropLit ps cs else none

/-- The lazy regex fragment `[^>]*?` followed by the continuation `k`:
shortest gap of non-`>` characters after which `k` matches. -/
def lazyGap (k : List Char → Option (List Char)) : List Char → Option (List Char)
  | [] => k []
  | c :: cs =>
    match k (c :: cs) with
    | some r => some r
    | none => if c = '>' then none else lazyGap k cs

/-- The greedy regex fragment `[./]*` followed by the continuation `k`:
longest run of `.` and `/` characters (with backtracking) after which
`k` matches. -/
def greedyDotSlash (k : List Char → Option (List Char)) : List Char → Option (List Char)
  | [] => k []
  | c :: cs =>
    if c = '.' ∨ c = '/' then
      match greedyDotSlash k cs with
      | some r => some r
      | none => k (c :: cs)
    else k (c :: cs)

/-- Matcher for the `embedJs` pattern
`<script[^>]*?F[^>]*?></script>` at the start of the input, where `F`
is the chunk file name (`escapeRegExp` makes it a literal in the
source, so the model matches it literally).  Returns the input suffix
after the match. -/
def matchScriptTagAt (f : List Char) (s : List Char) : Option (List Char) :=
  (dropLit "<script".data s).bind
    (lazyGap fun s1 =>
      (dropLit f s1).bind
        (lazyGap fun s2 => dropLit "></script>".data s2))

/-- Matcher for the `embedCss` pattern
`<link [^>]*?href="[./]*F"[^>]*?>` at the start of the input, `F`
again the literal asset file name. -/
def matchLinkTagAt (f : List Char) (s : List Char) : Option (List Char) :=
  (dropLit "<link ".data s).bind
    (lazyGap fun s1 =>
      (dropLit "href=\"".data s1).bind
        (greedyDotSlash fun s2 =>
          (dropLit f s2).bind fun s3 =>
            (dropLit "\"".data s3).bind
              (lazyGap fun s4 => dropLit ">".data s4)))

/-- `String.prototype.replace` with a non-global regex: replace the
leftmost match (found by `matchAt`) with `repl`; no match leaves the
input unchanged. -/
def replaceFirst (matchAt : List Char → Option (List Char)) (repl : List Char) :
    List Char → List Char
  | [] => []
  | c :: cs =>
    match matchAt (c :: cs) with
    | some rest => repl ++ rest
    | none => c :: replaceFirst matchAt repl cs

/-- A single-quote character as a string (the `'` delimiters of the
`document.write` payload). -/
def singleQuote : String :=
  String.singleton (Char.ofNat 39)

/-- Roadroller `InputType` (only `js` is used by the plugin). -/
inductive InputTypeM where
  | js : InputTypeM
  | text : InputTypeM
deriving DecidableEq

/-- Roadroller `InputAction` (only `eval` is used by the plugin). -/
inductive InputActionM where
  | eval : InputActionM
  | write : InputActionM
deriving DecidableEq

/-- One roadroller packer input record `{data, type, action}`. -/
structure InputM where
  data : String
  type : InputTypeM
  action : InputActionM
deriving DecidableEq

/-- A bundle entry: `OutputAsset` (`fileName`, `source`) and
`OutputChunk` (`fileName`, `code`) unified into one record, since the
transform only ever reads these three fields. -/
structure BundleEntryM where
  fileName : String
  source : String
  code : String
deriving DecidableEq

/-- The in-memory bundle: output file name to entry, in insertion
order. -/
abbrev BundleM := List (String × BundleEntryM)

/-- `delete ctx.bundle[k]`: remove the entry with key `k`. -/
def deleteKey (k : String) : BundleM → BundleM
  | [] => []
  | e :: es => if e.1 = k then es else e :: deleteKey k es

/-- `ctx.bundle[k]` read access. -/
def lookupEntry (k : String) : BundleM → Option BundleEntryM
  | [] => none
  | e :: es => if e.1 = k then some e.2 else lookupEntry k es

/-- Embedding of `embedCss` (part_002 lines 684-688): replace the
matching `<link ...>` tag with a `<style>` element holding the
CleanCSS-minified source.  `cssMin` is the external
`new CleanCSS({level: 2}).minify(...).styles` step. -/
def embedCss (cssMin : String → String) (html : String) (asset : BundleEntryM) : String :=
  String.mk
    (replaceFirst (matchLinkTagAt asset.fileName.data)
      ("<style>" ++ cssMin asset.source ++ "</style>").data
      html.data)

/-- Embedding of `embedJs` (part_002 lines 662-676): delete the
chunk's `<script ...>` tag, build the payload
`document.write('<remaining html>');` + trimmed chunk code, hand the
packer exactly that single `js`/`eval` input, and return the two
decoder lines wrapped in a fresh `<script>` element -- which is the
whole returned document.  `pack` is the external
`new Packer(inputs, options)` / `optimize(2)` / `makeDecoder()`
pipeline, returning `(firstLine, secondLine)`; `Value` stands for the
`PackerOptions` object. -/
def embedJs (pack : List InputM → Value → String × String) (html : String)
    (chunk : BundleEntryM) (options : Value) : String :=
  let scriptTagRemoved :=
    String.mk (replaceFirst (matchScriptTagAt chunk.fileName.data) [] html.data)
  let htmlInJs :=
    "document.write(" ++ singleQuote ++ scriptTagRemoved ++ singleQuote ++ ");"
      ++ chunk.code.trim
  let inputs : List InputM := [⟨htmlInJs, InputTypeM.js, InputActionM.eval⟩]
  let lines := pack inputs options
  "<script>\n" ++ lines.1 ++ "\n" ++ lines.2 ++ "\n</script>"

/-- Embedding of the roadroller `transformIndexHtml.transform` body in
its during-build branch (part_002 lines 634-650): find the first
`.css` key, inline and delete it; minify the HTML (`htmlMin` is the
external `htmlMinify.minify` with the merged options); find the first
`.js` key (in the bundle key list computed before the CSS deletion),
embed and delete it.  Returns the final HTML and the mutated bundle.
The `lookupEntry _ = none` fallbacks are unreachable for bundles whose
keys are exactly `bundle.map Prod.fst`. -/
def roadrollerTransform (cssMin : String → String)
    (htmlMin : String → Value → String)
    (pack : List InputM → Value → String × String)
    (hmOpts rrOpts : Value)
    (html : String) (bundle : BundleM) : String × BundleM :=
  let bundleKeys := bundle.map Prod.fst
  let step1 :=
    match findBySuffix bundleKeys ".css" with
    | some cssKey =>
      match lookupEntry cssKey bundle with
      | some a => (embedCss cssMin html a, deleteKey cssKey bundle)
      | none => (html, bundle)
    | none => (html, bundle)
  let html2 := htmlMin step1.1 hmOpts
  match findBySuffix bundleKeys ".js" with
  | some jsKey =>
    match lookupEntry jsKey step1.2 with
    | some c => (embedJs pack html2 c rrOpts, deleteKey jsKey step1.2)
    | none => (html2, step1.2)
  | none => (html2, step1.2)

/-! ## `readAllFiles`: fault-tolerant recursive directory listing -/

/-- What the filesystem reports for one path: the path does not exist
(`existsSync` false), the stat/readdir call throws (`ioError`), the
path is a regular file, or it is a directory with the given child
names. -/
inductive FSNodeR where
  | missing : FSNodeR
  | ioError : FSNodeR
  | file : FSNodeR
  | dir : List String → FSNodeR
deriving DecidableEq

/-- Embedding of `readAllFiles` (part_002 lines 762-788).  The
filesystem is the oracle `fs`; `reg` is the optional filter
(`reg.test` as a predicate); recursion on path strings is bounded by
`fuel` (the source recursion is unbounded and relies on the directory
tree being finite and acyclic).  An `ioError` at a path makes that
subtree contribute `[]` -- the `try/catch` logs and returns the partial
`resultArr` -- while siblings are still traversed. -/
def readAllFiles : Nat → (String → FSNodeR) → Option (String → Bool) → String → List String
  | 0, _, _, _ => []
  | fuel + 1, fs, reg, root =>
    match fs root with
    | .missing => []
    | .ioError => []
    | .file =>
      match reg with
      | some r => if r root then [root] else []
      | none => [root]
    | .dir children =>
      children.flatMap (fun f => readAllFiles fuel fs reg (root ++ "/" ++ f))

/-! ## Lemmas: ECT ordering -/

/-- Inserting a non-`.html` name appends it after the existing prefix
(the comparator returns `1`, never `< 0`). -/
theorem binaryInsert_of_not_html (x : String) (hx : jsEndsWith x ".html" = false)
    (l : List String) : binaryInsert ectComparator x l = l ++ [x] := by
  induction l with
  | nil => rfl
  | cons y ys ih => simp [binaryInsert, ectComparator, hx, ih]

/-- Inserting an `.html` name puts it first (the comparator returns
`-1` against every prefix element). -/
theorem binaryInsert_of_html (h : String) (hh : jsEndsWith h ".html" = true)
    (l : List String) : binaryInsert ectComparator h l = h :: l := by
  cases l with
  | nil => rfl
  | cons y ys => simp [binaryInsert, ectComparator, hh]

/-- Folding the insertion over a run of non-`.html` names appends them
in order. -/
theorem foldl_insert_not_html (l : List String)
    (hl : ∀ x ∈ l, jsEndsWith x ".html" = false) (acc : List String) :
    List.foldl (fun acc x => binaryInsert ectComparator x acc) acc l = acc ++ l := by
  induction l generalizing acc with
  | nil => simp
  | cons y ys ih =>
    have hy : jsEndsWith y ".html" = false := hl y (by simp)
    have hys : ∀ x ∈ ys, jsEndsWith x ".html" = false := fun x hx => hl x (by simp [hx])
    rw [List.foldl_cons, binaryInsert_of_not_html y hy acc, ih hys]
    simp

/-- Claim C2: for any file list containing exactly one name ending in
`.html` and N others, the archive-input ordering produced by the ECT
plugin's sort places the `.html` file at index 0 and preserves the
relative order of the remaining N names. -/
theorem claim_C2_html_first (l₁ l₂ : List String) (h : String)
    (hh : jsEndsWith h ".html" = true)
    (h₁ : ∀ x ∈ l₁, jsEndsWith x ".html" = false)
    (h₂ : ∀ x ∈ l₂, jsEndsWith x ".html" = false) :
    jsSort ectComparator (l₁ ++ h :: l₂) = h :: (l₁ ++ l₂) := by
  unfold jsSort
  rw [List.foldl_append, foldl_insert_not_html l₁ h₁ [], List.nil_append,
    List.foldl_cons, binaryInsert_of_html h hh, foldl_insert_not_html l₂ h₂ (h :: l₁)]
  simp

/-- Concrete instance of claim C2 at the file list
`["a.js", "index.html", "b.png"]`. -/
theorem claim_C2_witness :
    jsSort ectComparator (["a.js"] ++ "index.html" :: ["b.png"])
      = "index.html" :: (["a.js"] ++ ["b.png"]) :=
  claim_C2_html_first ["a.js"] ["b.png"] "index.html" (by decide) (by decide) (by decide)

/-! ## Claim C3: `embedJs` payload and output structure -/

/-- Claim C3: when a JS chunk is present the embedder deletes the
chunk's script tag from the document, feeds the packer exactly one
input whose `data` is `document.write('<document with script tag
removed>');` concatenated with the trimmed chunk code, typed `js` with
action `eval`, and the resulting document is the packer's two decoder
lines wrapped in a fresh `<script>` element, which is the final
document content.  The second conjunct evaluates the script-tag
deletion on a concrete document. -/
theorem claim_C3_embedJs_structure :
    (∀ (pack : List InputM → Value → String × String) (html : String)
        (chunk : BundleEntryM) (options : Value),
        embedJs pack html chunk options =
          "<script>\n"
            ++ (pack
                [⟨"document.write(" ++ singleQuote
                    ++ String.mk
                      (replaceFirst (matchScriptTagAt chunk.fileName.data) [] html.data)
                    ++ singleQuote ++ ");" ++ chunk.code.trim,
                  InputTypeM.js, InputActionM.eval⟩] options).1
            ++ "\n"
            ++ (pack
                [⟨"document.write(" ++ singleQuote
                    ++ String.mk
                      (replaceFirst (matchScriptTagAt chunk.fileName.data) [] html.data)
                    ++ singleQuote ++ ");" ++ chunk.code.trim,
                  InputTypeM.js, InputActionM.eval⟩] options).2
            ++ "\n</script>") ∧
    String.mk (replaceFirst (matchScriptTagAt "main.js".data) []
        "<html><script src=\"main.js\"></script><body></body></html>".data)
      = "<html><body></body></html>" :=
  ⟨fun _ _ _ _ => rfl, by decide⟩

/-! ## Claim C4: advzip precondition -/

/-- Claim C4: if `index.zip` does not exist in the output directory
when the advzip stage runs, the stage raises the specific error that
the ECT stage must run first, and the external recompressor is never
invoked (no `Except.ok` argument vector is produced). -/
theorem claim_C4_advzip_precondition (existsSync : String → Bool) (outDir : String)
    (o : AdvzipOptionsM) (habsent : existsSync (outDir ++ "/index.zip") = false) :
    advzipCloseBundle existsSync outDir o
      = Except.error "advzip requires ECT plugin to run first - no index.zip found" := by
  simp [advzipCloseBundle, habsent]

/-- Concrete instance of claim C4 on an empty filesystem. -/
theorem claim_C4_witness :
    advzipCloseBundle (fun _ => false) "dist" ⟨false, none⟩
      = Except.error "advzip requires ECT plugin to run first - no index.zip found" :=
  claim_C4_advzip_precondition (fun _ => false) "dist" ⟨false, none⟩ rfl

/-! ## Claim C7: `findBySuffix` first-match semantics -/

/-- Claim C7: the suffix lookup over bundle keys returns the first key,
in the bundle's iteration order, ending with the given suffix, and
`none` exactly when no key matches; in particular
`findBySuffix ['a.css','b.js','c.css'] '.css'` returns `'a.css'`. -/
theorem claim_C7_findBySuffix_first :
    (∀ (keys : List String) (suffix k : String),
        findBySuffix keys suffix = some k →
          jsEndsWith k suffix = true ∧
          ∃ l₁ l₂, keys = l₁ ++ k :: l₂ ∧ ∀ x ∈ l₁, jsEndsWith x suffix = false) ∧
    (∀ (keys : List String) (suffix : String),
        findBySuffix keys suffix = none ↔ ∀ x ∈ keys, jsEndsWith x suffix = false) ∧
    findBySuffix ["a.css", "b.js", "c.css"] ".css" = some "a.css" := by
  refine ⟨?_, ?_, by decide⟩
  · intro keys suffix k
    induction keys with
    | nil => intro hfind; simp [findBySuffix] at hfind
    | cons y ys ih =>
      intro hfind
      by_cases hy : jsEndsWith y suffix = true
      · rw [findBySuffix,
          @List.find?_cons_of_pos _ (fun key => jsEndsWith key suffix) y ys hy] at hfind
        cases hfind
        exact ⟨hy, [], ys, rfl, by simp⟩
      · rw [findBySuffix,
          @List.find?_cons_of_neg _ (fun key => jsEndsWith key suffix) y ys hy] at hfind
        obtain ⟨hk, l₁, l₂, hsplit, hl₁⟩ := ih hfind
        refine ⟨hk, y :: l₁, l₂, by simp [hsplit], ?_⟩
        intro x hx
        rcases List.mem_cons.mp hx with hx | hx
        · subst hx; exact Bool.eq_false_iff.mpr (fun hc => hy hc)
        · exact hl₁ x hx
  · intro keys suffix
    rw [findBySuffix, List.find?_eq_none]
    constructor
    · intro hnone x hx
      exact Bool.eq_false_iff.mpr (fun hc => hnone x hx hc)
    · intro hall x hx hc
      rw [hall x hx] at hc
      cases hc

/-- Concrete instance of claim C7: first-match decomposition of the
bundle key list `["a.css", "b.js", "c.css"]`. -/
theorem claim_C7_witness :
    jsEndsWith "a.css" ".css" = true ∧
    ∃ l₁ l₂, ["a.css", "b.js", "c.css"] = l₁ ++ "a.css" :: l₂ ∧
      ∀ x ∈ l₁, jsEndsWith x ".css" = false :=
  claim_C7_findBySuffix_first.1 ["a.css", "b.js", "c.css"] ".css" "a.css" (by decide)

/-! ## Claim C9: `readAllFiles` error handling -/

/-- Claim C9: the recursive file lister returns an empty sequence
without raising when the root does not exist, an I/O error during
traversal is caught (that subtree yields the partial result `[]`
instead of an exception), and -- third conjunct -- siblings of an
erroring path are still listed, so the caller receives a partial
list. -/
theorem claim_C9_readAllFiles_errors :
    (∀ (fuel : Nat) (fs : String → FSNodeR) (reg : Option (String → Bool)) (root : String),
        fs root = FSNodeR.missing → readAllFiles fuel fs reg root = []) ∧
    (∀ (fuel : Nat) (fs : String → FSNodeR) (reg : Option (String → Bool)) (root : String),
        fs root = FSNodeR.ioError → readAllFiles fuel fs reg root = []) ∧
    readAllFiles 2
        (fun p => if p = "pub" then FSNodeR.dir ["a", "b"]
          else if p = "pub/a" then FSNodeR.ioError
          else if p = "pub/b" then FSNodeR.file
          else FSNodeR.missing)
        none "pub" = ["pub/b"] := by
  refine ⟨?_, ?_, by decide⟩
  · intro fuel fs reg root hr
    cases fuel with
    | zero => rfl
    | succ n => simp [readAllFiles, hr]
  · intro fuel fs reg root hr
    cases fuel with
    | zero => rfl
    | succ n => simp [readAllFiles, hr]

/-- Concrete instance of claim C9 on a nonexistent root directory. -/
theorem claim_C9_witness :
    readAllFiles 5 (fun _ => FSNodeR.missing) none "missing-dir" = [] :=
  claim_C9_readAllFiles_errors.1 5 (fun _ => FSNodeR.missing) none "missing-dir" rfl

/-! ## Lemmas: bundle deletion -/

/-- Deleting a key yields a sublist of the bundle (order and values of
the surviving entries are untouched). -/
theorem deleteKey_sublist (k : String) (l : BundleM) : (deleteKey k l).Sublist l := by
  induction l with
  | nil => simp [deleteKey]
  | cons e es ih =>
    rw [deleteKey]
    by_cases h : e.1 = k
    · simp only [h, if_pos rfl]
      exact List.Sublist.cons e (List.Sublist.refl es)
    · rw [if_neg h]
      exact List.Sublist.cons₂ e ih

/-- Deleting a key removes at most one entry. -/
theorem deleteKey_length (k : String) (l : BundleM) :
    l.length ≤ (deleteKey k l).length + 1 := by
  induction l with
  | nil => simp [deleteKey]
  | cons e es ih =>
    rw [deleteKey]
    by_cases h : e.1 = k
    · simp [h]
    · rw [if_neg h]
      simpa using Nat.succ_le_succ ih

/-- An entry with a different key survives the deletion. -/
theorem mem_deleteKey (k : String) (l : BundleM) (e : String × BundleEntryM)
    (he : e ∈ l) (hne : e.1 ≠ k) : e ∈ deleteKey k l := by
  induction l with
  | nil => cases he
  | cons f fs ih =>
    rw [deleteKey]
    by_cases hf : f.1 = k
    · rw [if_pos hf]
      rcases List.mem_cons.mp he with rfl | hmem
      · exact absurd hf hne
      · exact hmem
    · rw [if_neg hf]
      rcases List.mem_cons.mp he with rfl | hmem
      · exact List.mem_cons_self _ _
      · exact List.mem_cons_of_mem _ (ih hmem)

/-! ## Claim C8: transform is a no-op without CSS/JS assets -/

/-- Claim C8: if the bundle contains no key ending in `.css` and none
ending in `.js`, the embedder output is exactly the HTML-minified form
of the input document and the bundle is untouched (both embedding
phases are no-ops; the model is total, so no error arises). -/
theorem claim_C8_no_assets_noop (cssMin : String → String)
    (htmlMin : String → Value → String) (pack : List InputM → Value → String × String)
    (hmOpts rrOpts : Value) (html : String) (bundle : BundleM)
    (hcss : findBySuffix (bundle.map Prod.fst) ".css" = none)
    (hjs : findBySuffix (bundle.map Prod.fst) ".js" = none) :
    roadrollerTransform cssMin htmlMin pack hmOpts rrOpts html bundle
      = (htmlMin html hmOpts, bundle) := by
  simp [roadrollerTransform, hcss, hjs]

/-- Concrete instance of claim C8: a bundle holding only
`index.html`. -/
theorem claim_C8_witness :
    roadrollerTransform (fun s => s) (fun s _ => s) (fun _ _ => ("", ""))
        Value.undefined Value.undefined "<p>hi</p>"
        [("index.html", BundleEntryM.mk "index.html" "" "")]
      = ("<p>hi</p>", [("index.html", BundleEntryM.mk "index.html" "" "")]) :=
  claim_C8_no_assets_noop (fun s => s) (fun s _ => s) (fun _ _ => ("", ""))
    Value.undefined Value.undefined "<p>hi</p>"
    [("index.html", BundleEntryM.mk "index.html" "" "")] (by decide) (by decide)

/-! ## Claim C10: frame property of the transform on the bundle -/

/-- Combinatorial core of the frame property: a bundle obtained by at
most one keyed deletion followed by at most one more keyed deletion is
a sublist, loses at most two entries, and keeps every entry whose key
differs from both deleted keys. -/
theorem bundle_frame_aux (bundle b1 b2 : BundleM) (cs js : Option String)
    (h1 : b1 = bundle ∨ ∃ ck, cs = some ck ∧ b1 = deleteKey ck bundle)
    (h2 : b2 = b1 ∨ ∃ jk, js = some jk ∧ b2 = deleteKey jk b1) :
    b2.Sublist bundle ∧ bundle.length ≤ b2.length + 2 ∧
    (∀ e ∈ bundle, (∀ ck, cs = some ck → e.1 ≠ ck) →
      (∀ jk, js = some jk → e.1 ≠ jk) → e ∈ b2) := by
  have hsub1 : b1.Sublist bundle := by
    rcases h1 with h1 | ⟨ck, _, h1⟩
    · rw [h1]
    · rw [h1]
      exact deleteKey_sublist ck bundle
  have hlen1 : bundle.length ≤ b1.length + 1 := by
    rcases h1 with h1 | ⟨ck, _, h1⟩
    · rw [h1]
      omega
    · rw [h1]
      exact deleteKey_length ck bundle
  have hmem1 : ∀ e ∈ bundle, (∀ ck, cs = some ck → e.1 ≠ ck) → e ∈ b1 := by
    intro e he hck
    rcases h1 with h1 | ⟨ck, hfind, h1⟩
    · rw [h1]
      exact he
    · rw [h1]
      exact mem_deleteKey ck bundle e he (hck ck hfind)
  refine ⟨?_, ?_, ?_⟩
  · rcases h2 with h2 | ⟨jk, _, h2⟩
    · rw [h2]
      exact hsub1
    · rw [h2]
      exact (deleteKey_sublist jk b1).trans hsub1
  · rcases h2 with h2 | ⟨jk, _, h2⟩
    · rw [h2]
      omega
    · rw [h2]
      have := deleteKey_length jk b1
      omega
  · intro e he hck hjk
    rcases h2 with h2 | ⟨jk, hfind, h2⟩
    · rw [h2]
      exact hmem1 e he hck
    · rw [h2]
      exact mem_deleteKey jk b1 e (hmem1 e he hck) (hjk jk hfind)

/-- The transform's surviving bundle is the original with the located
`.css` key optionally deleted and then the located `.js` key optionally
deleted. -/
theorem roadrollerTransform_snd_cases (cssMin : String → String)
    (htmlMin : String → Value → String) (pack : List InputM → Value → String × String)
    (hmOpts rrOpts : Value) (html : String) (bundle : BundleM) :
    ∃ b1 : BundleM,
      (b1 = bundle ∨ ∃ ck, findBySuffix (bundle.map Prod.fst) ".css" = some ck ∧
        b1 = deleteKey ck bundle) ∧
      ((roadrollerTransform cssMin htmlMin pack hmOpts rrOpts html bundle).2 = b1 ∨
        ∃ jk, findBySuffix (bundle.map Prod.fst) ".js" = some jk ∧
          (roadrollerTransform cssMin htmlMin pack hmOpts rrOpts html bundle).2
            = deleteKey jk b1) := by
  cases hcss : findBySuffix (bundle.map Prod.fst) ".css" with
  | none =>
    cases hjs : findBySuffix (bundle.map Prod.fst) ".js" with
    | none =>
      exact ⟨bundle, Or.inl rfl, Or.inl (by simp [roadrollerTransform, hcss, hjs])⟩
    | some jk =>
      cases hlook : lookupEntry jk bundle with
      | none =>
        exact ⟨bundle, Or.inl rfl,
          Or.inl (by simp [roadrollerTransform, hcss, hjs, hlook])⟩
      | some c =>
        exact ⟨bundle, Or.inl rfl,
          Or.inr ⟨jk, rfl, by simp [roadrollerTransform, hcss, hjs, hlook]⟩⟩
  | some ck =>
    cases hlookc : lookupEntry ck bundle with
    | none =>
      cases hjs : findBySuffix (bundle.map Prod.fst) ".js" with
      | none =>
        exact ⟨bundle, Or.inl rfl,
          Or.inl (by simp [roadrollerTransform, hcss, hjs, hlookc])⟩
      | some jk =>
        cases hlook : lookupEntry jk bundle with
        | none =>
          exact ⟨bundle, Or.inl rfl,
            Or.inl (by simp [roadrollerTransform, hcss, hjs, hlookc, hlook])⟩
        | some c =>
          exact ⟨bundle, Or.inl rfl,
            Or.inr ⟨jk, rfl, by simp [roadrollerTransform, hcss, hjs, hlookc, hlook]⟩⟩
    | some a =>
      cases hjs : findBySuffix (bundle.map Prod.fst) ".js" with
      | none =>
        exact ⟨deleteKey ck bundle, Or.inr ⟨ck, rfl, rfl⟩,
          Or.inl (by simp [roadrollerTransform, hcss, hjs, hlookc])⟩
      | some jk =>
        cases hlook : lookupEntry jk (deleteKey ck bundle) with
        | none =>
          exact ⟨deleteKey ck bundle, Or.inr ⟨ck, rfl, rfl⟩,
            Or.inl (by simp [roadrollerTransform, hcss, hjs, hlookc, hlook])⟩
        | some c =>
          exact ⟨deleteKey ck bundle, Or.inr ⟨ck, rfl, rfl⟩,
            Or.inr ⟨jk, rfl, by simp [roadrollerTransform, hcss, hjs, hlookc, hlook]⟩⟩

/-- Claim C10: the embedder transform removes at most two entries from
the bundle -- the located first `.css` key and first `.js` key -- and
every other entry (including later `.css`/`.js` keys) stays present and
unmodified, in order (the surviving bundle is a sublist of the
original). -/
theorem claim_C10_bundle_frame (cssMin : String → String)
    (htmlMin : String → Value → String) (pack : List InputM → Value → String × String)
    (hmOpts rrOpts : Value) (html : String) (bundle : BundleM) :
    ((roadrollerTransform cssMin htmlMin pack hmOpts rrOpts html bundle).2.Sublist bundle) ∧
    bundle.length
      ≤ (roadrollerTransform cssMin htmlMin pack hmOpts rrOpts html bundle).2.length + 2 ∧
    (∀ e ∈ bundle,
      (∀ ck, findBySuffix (bundle.map Prod.fst) ".css" = some ck → e.1 ≠ ck) →
      (∀ jk, findBySuffix (bundle.map Prod.fst) ".js" = some jk → e.1 ≠ jk) →
      e ∈ (roadrollerTransform cssMin htmlMin pack hmOpts rrOpts html bundle).2) := by
  obtain ⟨b1, hb1, hb2⟩ :=
    roadrollerTransform_snd_cases cssMin htmlMin pack hmOpts rrOpts html bundle
  exact bundle_frame_aux bundle b1 _ _ _ hb1 hb2

/-- Concrete instance of claim C10: the third `.css` entry (beyond the
first match) survives the transform. -/
theorem claim_C10_witness :
    ("c.css", BundleEntryM.mk "c.css" "qstyle" "")
      ∈ (roadrollerTransform (fun s => s) (fun s _ => s) (fun _ _ => ("", ""))
          Value.undefined Value.undefined "<p></p>"
          [("a.css", BundleEntryM.mk "a.css" "pstyle" ""),
           ("b.js", BundleEntryM.mk "b.js" "" "x=1"),
           ("c.css", BundleEntryM.mk "c.css" "qstyle" "")]).2 :=
  (claim_C10_bundle_frame (fun s => s) (fun s _ => s) (fun _ _ => ("", ""))
      Value.undefined Value.undefined "<p></p>"
      [("a.css", BundleEntryM.mk "a.css" "pstyle" ""),
       ("b.js", BundleEntryM.mk "b.js" "" "x=1"),
       ("c.css", BundleEntryM.mk "c.css" "qstyle" "")]).2.2
    ("c.css", BundleEntryM.mk "c.css" "qstyle" "") (by decide)
    (by
      intro ck hck
      have h2 : some ck = some "a.css" := hck.symm.trans (by decide)
      injection h2 with h3
      rw [h3]
      decide)
    (by
      intro jk hjk
      have h2 : some jk = some "b.js" := hjk.symm.trans (by decide)
      injection h2 with h3
      rw [h3]
      decide)

/-! ## Lemmas: the value model -/

/-- Only `undefined` is undefined. -/
theorem isUndef_eq (x : Value) (h : isUndef x = true) : x = Value.undefined := by
  cases x with
  | undefined => rfl
  | prim n => cases h
  | obj b es => cases h

/-- Objects are not undefined. -/
theorem isUndef_of_isObject (x : Value) (h : isObject x = true) : isUndef x = false := by
  cases x with
  | undefined => cases h
  | prim n => rfl
  | obj b es => rfl

/-- Arrays are objects for `isObject`. -/
theorem isObject_of_isArrayV (x : Value) (h : isArrayV x = true) : isObject x = true := by
  cases x with
  | undefined => cases h
  | prim n => cases h
  | obj b es => rfl

/-- `undefined` is not an object. -/
theorem isObject_undef : isObject Value.undefined = false := rfl

/-- Reading a key just written. -/
theorem getKey_setKey_self (k : String) (v : Value) (es : List (String × Value)) :
    getKey k (setKey k v es) = v := by
  induction es with
  | nil => simp [setKey, getKey]
  | cons e rest ih =>
    by_cases h : e.1 = k
    · simp [setKey, getKey, h]
    · simp [setKey, getKey, h, ih]

/-- Writing one key does not change another. -/
theorem getKey_setKey_ne (k1 k : String) (v : Value) (h : k1 ≠ k)
    (es : List (String × Value)) : getKey k (setKey k1 v es) = getKey k es := by
  induction es with
  | nil => simp [setKey, getKey, h]
  | cons e rest ih =>
    by_cases he : e.1 = k1
    · simp [setKey, getKey, he, h]
    · simp only [setKey, if_neg he]
      by_cases hek : e.1 = k
      · simp [getKey, hek]
      · simp [getKey, hek, ih]

/-- A present entry makes `hasKey` true. -/
theorem hasKey_of_mem (k : String) (v : Value) (es : List (String × Value))
    (h : (k, v) ∈ es) : hasKey k es = true := by
  induction es with
  | nil => cases h
  | cons e rest ih =>
    rcases List.mem_cons.mp h with h | h
    · simp [hasKey, ← h]
    · simp [hasKey, ih h]

/-- An absent key reads as `undefined`. -/
theorem getKey_of_not_hasKey (k : String) (es : List (String × Value))
    (h : hasKey k es = false) : getKey k es = Value.undefined := by
  induction es with
  | nil => rfl
  | cons e rest ih =>
    simp only [hasKey, Bool.or_eq_false_iff, decide_eq_false_iff_not] at h
    simp [getKey, h.1, ih h.2]

/-- A key reading as defined is present. -/
theorem hasKey_of_getKey_ne_undef (k : String) (es : List (String × Value))
    (h : isUndef (getKey k es) = false) : hasKey k es = true := by
  by_cases hk : hasKey k es = true
  · exact hk
  · rw [getKey_of_not_hasKey k es (by simpa using hk)] at h
    cases h

/-- Rewriting a key with its own value is the identity when the key is
present. -/
theorem setKey_getKey_self (k : String) (es : List (String × Value))
    (h : hasKey k es = true) : setKey k (getKey k es) es = es := by
  induction es with
  | nil => cases h
  | cons e rest ih =>
    by_cases he : e.1 = k
    · obtain ⟨e1, e2⟩ := e
      simp only at he
      subst he
      simp [setKey, getKey]
    · simp only [hasKey, Bool.or_eq_true, decide_eq_true_eq] at h
      rcases h with h | h
      · exact absurd h he
      · simp [setKey, getKey, he, ih h]

/-- A just-written key is present. -/
theorem hasKey_setKey_self (k : String) (v : Value) (es : List (String × Value)) :
    hasKey k (setKey k v es) = true := by
  induction es with
  | nil => simp [setKey, hasKey]
  | cons e rest ih =>
    by_cases he : e.1 = k
    · simp [setKey, hasKey, he]
    · simp [setKey, hasKey, he, ih]

/-- Writing any key preserves presence of the others. -/
theorem hasKey_setKey_mono (k k1 : String) (v : Value) (es : List (String × Value))
    (h : hasKey k es = true) : hasKey k (setKey k1 v es) = true := by
  induction es with
  | nil => cases h
  | cons e rest ih =>
    simp only [hasKey, Bool.or_eq_true, decide_eq_true_eq] at h
    by_cases he : e.1 = k1
    · rcases h with h | h
      · simp [setKey, hasKey, he, ← he ▸ h]
      · simp [setKey, hasKey, he, h]
    · rcases h with h | h
      · simp only [setKey, if_neg he]
        simp [hasKey, h]
      · simp only [setKey, if_neg he]
        simp [hasKey, ih h]

/-- With distinct keys, a present entry is the value `getKey` finds. -/
theorem getKey_mem_nodup (k : String) (v : Value) (es : List (String × Value))
    (hnd : nodupKeys es = true) (h : (k, v) ∈ es) : getKey k es = v := by
  induction es with
  | nil => cases h
  | cons e rest ih =>
    simp only [nodupKeys, Bool.and_eq_true, Bool.not_eq_true'] at hnd
    rcases List.mem_cons.mp h with h | h
    · simp [getKey, ← h]
    · by_cases he : e.1 = k
      · exfalso
        rw [he] at hnd
        rw [hasKey_of_mem k v rest h] at hnd
        cases hnd.1
      · simp [getKey, he, ih hnd.2 h]

/-- Setting a property preserves objectness. -/
theorem isObject_setVal (a : Value) (k : String) (v : Value) :
    isObject (setVal a k v) = isObject a := by
  cases a <;> rfl

/-- Reading a property just set on an object. -/
theorem getVal_setVal_self (a : Value) (k : String) (v : Value)
    (ha : isObject a = true) : getVal (setVal a k v) k = v := by
  cases a with
  | undefined => cases ha
  | prim n => cases ha
  | obj b es => simp [setVal, getVal, getKey_setKey_self]

/-- Setting one property does not change another. -/
theorem getVal_setVal_ne (a : Value) (k1 k : String) (v : Value) (h : k1 ≠ k) :
    getVal (setVal a k1 v) k = getVal a k := by
  cases a with
  | undefined => rfl
  | prim n => rfl
  | obj b es => simp [setVal, getVal, getKey_setKey_ne k1 k v h]

/-- A defined property is present. -/
theorem hasVal_of_getVal_ne_undef (a : Value) (k : String)
    (h : isUndef (getVal a k) = false) : hasVal a k = true := by
  cases a with
  | undefined => cases h
  | prim n => cases h
  | obj b es => exact hasKey_of_getKey_ne_undef k es h

/-- Rewriting a present property with its own value is the identity. -/
theorem setVal_getVal_self (a : Value) (k : String) (ha : isObject a = true)
    (hk : hasVal a k = true) : setVal a k (getVal a k) = a := by
  cases a with
  | undefined => cases ha
  | prim n => cases ha
  | obj b es => simp [setVal, getVal, setKey_getKey_self k es hk]

/-- A just-set property is present. -/
theorem hasVal_setVal_self (a : Value) (k : String) (v : Value)
    (ha : isObject a = true) : hasVal (setVal a k v) k = true := by
  cases a with
  | undefined => cases ha
  | prim n => cases ha
  | obj b es => simp [setVal, hasVal, hasKey_setKey_self]

/-- Setting any property preserves presence of the others. -/
theorem hasVal_setVal_mono (a : Value) (k k1 : String) (v : Value)
    (h : hasVal a k = true) : hasVal (setVal a k1 v) k = true := by
  cases a with
  | undefined => cases h
  | prim n => cases h
  | obj b es => simp [setVal, hasVal, hasKey_setKey_mono k k1 v es h]

/-! ## Lemmas: one merge step -/

/-- The loop equation: one entry is processed by `stepOne`, then the
rest. -/
theorem mergeEntries_cons (a : Value) (k : String) (v : Value)
    (rest : List (String × Value)) :
    mergeEntries a ((k, v) :: rest) = mergeEntries (stepOne a k v) rest := rfl

/-- A merge step preserves objectness. -/
theorem isObject_stepOne (a : Value) (k : String) (v : Value) :
    isObject (stepOne a k v) = isObject a := by
  unfold stepOne
  by_cases h1 : isUndef (getVal a k) = true
  · simp [h1, isObject_setVal]
  · by_cases h2 : (isObject v && isObject (getVal a k)) = true
    · simp [h1, h2, isObject_setVal]
    · simp [h1, h2]

/-- A merge step at one key does not change another key. -/
theorem getVal_stepOne_ne (a : Value) (k1 k : String) (v : Value) (h : k1 ≠ k) :
    getVal (stepOne a k1 v) k = getVal a k := by
  unfold stepOne
  by_cases h1 : isUndef (getVal a k1) = true
  · simp [h1, getVal_setVal_ne a k1 k _ h]
  · by_cases h2 : (isObject v && isObject (getVal a k1)) = true
    · simp [h1, h2, getVal_setVal_ne a k1 k _ h]
    · simp [h1, h2]

/-- A merge step on a non-object base is the identity (property writes
on primitives are ignored). -/
theorem stepOne_nonObject (a : Value) (k : String) (v : Value)
    (ha : isObject a = false) : stepOne a k v = a := by
  unfold stepOne
  cases a with
  | undefined => rfl
  | prim n => rfl
  | obj b es => cases ha

/-- The value at the stepped key. -/
theorem getVal_stepOne_self (a : Value) (k : String) (v : Value)
    (ha : isObject a = true) :
    getVal (stepOne a k v) k =
      if isUndef (getVal a k) then v
      else if isObject v && isObject (getVal a k) then
        addDefaultValues (getVal a k) v
      else getVal a k := by
  unfold stepOne
  by_cases h1 : isUndef (getVal a k) = true
  · simp [h1, getVal_setVal_self a k _ ha]
  · by_cases h2 : (isObject v && isObject (getVal a k)) = true
    · simp [h1, h2, getVal_setVal_self a k _ ha]
    · simp [h1, h2]

/-- After a step at `k` on an object, `k` is present. -/
theorem hasVal_stepOne_self (a : Value) (k : String) (v : Value)
    (ha : isObject a = true) : hasVal (stepOne a k v) k = true := by
  unfold stepOne
  by_cases h1 : isUndef (getVal a k) = true
  · simp [h1, hasVal_setVal_self a k _ ha]
  · by_cases h2 : (isObject v && isObject (getVal a k)) = true
    · simp [h1, h2, hasVal_setVal_self a k _ ha]
    · simp only [h1, h2, if_false]
      exact hasVal_of_getVal_ne_undef a k (by simpa using h1)

/-- A merge step preserves presence of every key. -/
theorem hasVal_stepOne_mono (a : Value) (k k1 : String) (v : Value)
    (h : hasVal a k = true) : hasVal (stepOne a k1 v) k = true := by
  unfold stepOne
  by_cases h1 : isUndef (getVal a k1) = true
  · simp [h1, hasVal_setVal_mono a k k1 _ h]
  · by_cases h2 : (isObject v && isObject (getVal a k1)) = true
    · simp [h1, h2, hasVal_setVal_mono a k k1 _ h]
    · simp [h1, h2, h]

/-! ## Lemmas: the whole entry loop -/

/-- The loop preserves objectness. -/
theorem isObject_mergeEntries (bs : List (String × Value)) :
    ∀ a : Value, isObject (mergeEntries a bs) = isObject a := by
  induction bs with
  | nil => intro a; rfl
  | cons e rest ih =>
    intro a
    obtain ⟨k, v⟩ := e
    rw [mergeEntries_cons, ih, isObject_stepOne]

/-- The loop is the identity on non-objects. -/
theorem mergeEntries_nonObject (bs : List (String × Value)) :
    ∀ a : Value, isObject a = false → mergeEntries a bs = a := by
  induction bs with
  | nil => intro a _; rfl
  | cons e rest ih =>
    intro a ha
    obtain ⟨k, v⟩ := e
    rw [mergeEntries_cons, stepOne_nonObject a k v ha, ih a ha]

/-- The loop never touches a key absent from the processed entries. -/
theorem getVal_mergeEntries_not_hasKey (bs : List (String × Value)) :
    ∀ (a : Value) (k : String), hasKey k bs = false →
      getVal (mergeEntries a bs) k = getVal a k := by
  induction bs with
  | nil => intro a k _; rfl
  | cons e rest ih =>
    intro a k h
    obtain ⟨k1, v1⟩ := e
    simp only [hasKey, Bool.or_eq_false_iff, decide_eq_false_iff_not] at h
    rw [mergeEntries_cons, ih _ k h.2, getVal_stepOne_ne a k1 k v1 h.1]

/-- The loop preserves presence of every key. -/
theorem hasVal_mergeEntries_mono (bs : List (String × Value)) :
    ∀ (a : Value) (k : String), hasVal a k = true →
      hasVal (mergeEntries a bs) k = true := by
  induction bs with
  | nil => intro a k h; exact h
  | cons e rest ih =>
    intro a k h
    obtain ⟨k1, v1⟩ := e
    rw [mergeEntries_cons]
    exact ih _ k (hasVal_stepOne_mono a k k1 v1 h)

/-- Every processed key is present after the loop (on an object
base). -/
theorem hasVal_mergeEntries_of_hasKey (bs : List (String × Value)) :
    ∀ (a : Value) (k : String), isObject a = true → hasKey k bs = true →
      hasVal (mergeEntries a bs) k = true := by
  induction bs with
  | nil => intro a k _ h; cases h
  | cons e rest ih =>
    intro a k ha h
    obtain ⟨k1, v1⟩ := e
    rw [mergeEntries_cons]
    simp only [hasKey, Bool.or_eq_true, decide_eq_true_eq] at h
    by_cases hk : k1 = k
    · subst hk
      exact hasVal_mergeEntries_mono rest _ k1 (hasVal_stepOne_self a k1 v1 ha)
    · rcases h with h | h
      · exact absurd h hk
      · exact ih _ k (by rw [isObject_stepOne]; exact ha) h

/-- A fixed point of every step is a fixed point of the loop. -/
theorem mergeEntries_fixed (bs : List (String × Value)) (a : Value)
    (h : ∀ p ∈ bs, stepOne a p.1 p.2 = a) : mergeEntries a bs = a := by
  induction bs with
  | nil => rfl
  | cons e rest ih =>
    obtain ⟨k, v⟩ := e
    rw [mergeEntries_cons, h (k, v) (List.mem_cons_self _ _)]
    exact ih (fun p hp => h p (List.mem_cons_of_mem _ hp))

/-- The merge on a base that is neither undefined nor an object is the
identity (`Object.entries` never touches it, property writes are
ignored). -/
theorem addDefaultValues_nonObject_left (a b : Value) (ha1 : isUndef a = false)
    (ha2 : isObject a = false) : addDefaultValues a b = a := by
  cases a with
  | undefined => cases ha1
  | prim n =>
    cases b with
    | undefined => rfl
    | prim m => rfl
    | obj g bs => exact mergeEntries_nonObject bs _ ha2
  | obj f es => cases ha2

/-- The merge with a non-object defaults argument is the identity on a
defined base. -/
theorem addDefaultValues_nonObject_right (a b : Value) (ha : isUndef a = false)
    (hb : isObject b = false) : addDefaultValues a b = a := by
  cases a with
  | undefined => cases ha
  | prim n =>
    cases b with
    | undefined => rfl
    | prim m => rfl
    | obj g bs => cases hb
  | obj f es =>
    cases b with
    | undefined => rfl
    | prim m => rfl
    | obj g bs => cases hb

/-- The merge of two objects is an object. -/
theorem isObject_addDefaultValues (a b : Value) (ha : isObject a = true) :
    isObject (addDefaultValues a b) = true := by
  cases a with
  | undefined => cases ha
  | prim n => cases ha
  | obj f es =>
    cases b with
    | undefined => exact ha
    | prim m => exact ha
    | obj g bs =>
      rw [show addDefaultValues (Value.obj f es) (Value.obj g bs)
        = mergeEntries (Value.obj f es) bs from rfl, isObject_mergeEntries]
      exact ha

/-- Pointwise description of the loop on an object base with distinct
processed keys: exactly the source's per-key conditional. -/
theorem getVal_mergeEntries_nodup (bs : List (String × Value)) :
    ∀ (a : Value) (k : String), isObject a = true → nodupKeys bs = true →
      getVal (mergeEntries a bs) k =
        if isUndef (getVal a k) then getKey k bs
        else if isObject (getKey k bs) && isObject (getVal a k) then
          addDefaultValues (getVal a k) (getKey k bs)
        else getVal a k := by
  induction bs with
  | nil =>
    intro a k _ _
    by_cases h : isUndef (getVal a k) = true
    · rw [show mergeEntries a [] = a from rfl]
      simp only [getKey, h, if_true]
      exact isUndef_eq _ h
    · simp [show mergeEntries a [] = a from rfl, getKey, h, isObject_undef]
  | cons e rest ih =>
    intro a k ha hnd
    obtain ⟨k1, v1⟩ := e
    simp only [nodupKeys, Bool.and_eq_true, Bool.not_eq_true'] at hnd
    rw [mergeEntries_cons]
    by_cases hk : k1 = k
    · subst hk
      rw [getVal_mergeEntries_not_hasKey rest _ k1 hnd.1,
        getVal_stepOne_self a k1 v1 ha]
      simp [getKey]
    · rw [ih (stepOne a k1 v1) k (by rw [isObject_stepOne]; exact ha) hnd.2,
        getVal_stepOne_ne a k1 k v1 hk]
      simp [getKey, hk]

/-- The per-key description of `addDefaultValues` on two objects with
distinct top-level default keys: take the default when the user key is
undefined, recurse when both are objects, keep the user value
otherwise. -/
theorem getVal_addDefaultValues (u d : Value) (k : String) (hu : isObject u = true)
    (hd : isObject d = true) (hnd : topNodup d = true) :
    getVal (addDefaultValues u d) k =
      if isUndef (getVal u k) then getVal d k
      else if isObject (getVal d k) && isObject (getVal u k) then
        addDefaultValues (getVal u k) (getVal d k)
      else getVal u k := by
  cases u with
  | undefined => cases hu
  | prim n => cases hu
  | obj f es =>
    cases d with
    | undefined => cases hd
    | prim m => cases hd
    | obj g bs =>
      rw [show addDefaultValues (Value.obj f es) (Value.obj g bs)
          = mergeEntries (Value.obj f es) bs from rfl]
      rw [show getVal (Value.obj g bs) k = getKey k bs from rfl]
      exact getVal_mergeEntries_nodup bs (Value.obj f es) k hu hnd

/-! ## Lemmas: well-formedness and sizes -/

/-- `nodupDeep` of an object gives distinct keys at the top. -/
theorem topNodup_of_nodupDeep (d : Value) (h : nodupDeep d = true) :
    topNodup d = true := by
  cases d with
  | undefined => rfl
  | prim n => rfl
  | obj f es =>
    simp only [nodupDeep, Bool.and_eq_true] at h
    exact h.1

/-- `nodupDeepList` covers every entry value. -/
theorem nodupDeep_of_mem (es : List (String × Value)) (k : String) (v : Value)
    (h : nodupDeepList es = true) (hm : (k, v) ∈ es) : nodupDeep v = true := by
  induction es with
  | nil => cases hm
  | cons e rest ih =>
    simp only [nodupDeepList, Bool.and_eq_true] at h
    rcases List.mem_cons.mp hm with hm | hm
    · rw [← hm] at h
      exact h.1
    · exact ih h.2 hm

/-- `nodupDeep` holds for every value read out of a well-formed
entry list. -/
theorem nodupDeep_getKey (es : List (String × Value)) (k : String)
    (h : nodupDeepList es = true) : nodupDeep (getKey k es) = true := by
  induction es with
  | nil => rfl
  | cons e rest ih =>
    simp only [nodupDeepList, Bool.and_eq_true] at h
    by_cases he : e.1 = k
    · simp only [getKey, if_pos he]
      exact h.1
    · simp only [getKey, if_neg he]
      exact ih h.2

/-- `nodupDeep` holds for every property of a well-formed value. -/
theorem nodupDeep_getVal (d : Value) (k : String) (h : nodupDeep d = true) :
    nodupDeep (getVal d k) = true := by
  cases d with
  | undefined => rfl
  | prim n => rfl
  | obj f es =>
    simp only [nodupDeep, Bool.and_eq_true] at h
    exact nodupDeep_getKey es k h.2

/-- An entry value is smaller than its entry list. -/
theorem sizeOf_lt_of_mem_entries (es : List (String × Value)) (k : String)
    (v : Value) (h : (k, v) ∈ es) : sizeOf v < sizeOf es := by
  induction es with
  | nil => cases h
  | cons e rest ih =>
    rcases List.mem_cons.mp h with h | h
    · rw [← h]
      simp only [List.cons.sizeOf_spec, Prod.mk.sizeOf_spec]
      omega
    · have := ih h
      simp only [List.cons.sizeOf_spec]
      omega

/-- An entry value is smaller than the object holding it. -/
theorem sizeOf_lt_of_mem_obj (f : Bool) (es : List (String × Value)) (k : String)
    (v : Value) (h : (k, v) ∈ es) : sizeOf v < sizeOf (Value.obj f es) := by
  have := sizeOf_lt_of_mem_entries es k v h
  simp only [Value.obj.sizeOf_spec]
  omega

/-- Every value has positive size. -/
theorem sizeOf_value_pos (x : Value) : 0 < sizeOf x := by
  cases x <;> simp

/-- Property reads of `undefined` along any path stay `undefined`. -/
theorem deepGet_undef (p : List String) : deepGet Value.undefined p = Value.undefined := by
  induction p with
  | nil => rfl
  | cons k rest ih =>
    rw [show deepGet Value.undefined (k :: rest) = deepGet (getVal Value.undefined k) rest
      from rfl]
    exact ih

/-! ## Merging a well-formed value with itself is the identity -/

/-- Bounded-size form of `mergeSelf`, by strong induction on the size
of the value. -/
theorem mergeSelf_bounded : ∀ (n : Nat) (x : Value), sizeOf x ≤ n →
    nodupDeep x = true → addDefaultValues x x = x := by
  intro n
  induction n with
  | zero =>
    intro x hx _
    exact absurd hx (by have := sizeOf_value_pos x; omega)
  | succ n ih =>
    intro x hx hwf
    cases x with
    | undefined => rfl
    | prim m => rfl
    | obj f es =>
      simp only [nodupDeep, Bool.and_eq_true] at hwf
      rw [show addDefaultValues (Value.obj f es) (Value.obj f es)
        = mergeEntries (Value.obj f es) es from rfl]
      apply mergeEntries_fixed
      intro p hp
      obtain ⟨k, v⟩ := p
      have hobj : isObject (Value.obj f es) = true := rfl
      have hget : getVal (Value.obj f es) k = v :=
        getKey_mem_nodup k v es hwf.1 hp
      have hhas : hasVal (Value.obj f es) k = true := hasKey_of_mem k v es hp
      unfold stepOne
      rw [hget]
      by_cases hv : isUndef v = true
      · rw [if_pos hv, ← hget]
        exact setVal_getVal_self _ k hobj hhas
      · rw [if_neg hv]
        by_cases ho : isObject v = true
        · rw [if_pos (by rw [ho]; simp)]
          have hvv : addDefaultValues v v = v :=
            ih v (by have := sizeOf_lt_of_mem_obj f es k v hp; omega)
              (nodupDeep_of_mem es k v hwf.2 hp)
          rw [hvv, ← hget]
          exact setVal_getVal_self _ k hobj hhas
        · rw [if_neg (by simp [ho])]

/-- Merging a well-formed value with itself changes nothing. -/
theorem mergeSelf (x : Value) (h : nodupDeep x = true) :
    addDefaultValues x x = x :=
  mergeSelf_bounded (sizeOf x) x (Nat.le_refl _) h

/-- An object value is an `obj`. -/
theorem exists_obj_of_isObject (x : Value) (h : isObject x = true) :
    ∃ f es, x = Value.obj f es := by
  cases x with
  | undefined => cases h
  | prim n => cases h
  | obj f es => exact ⟨f, es, rfl⟩

/-! ## Idempotence of the merge -/

/-- Bounded-size form of the idempotence of `addDefaultValues` in its
defaults argument: re-merging the merged result with the same
well-formed defaults changes nothing. -/
theorem mergeIdem_bounded : ∀ (n : Nat) (u d : Value), sizeOf d ≤ n →
    nodupDeep d = true →
    addDefaultValues (addDefaultValues u d) d = addDefaultValues u d := by
  intro n
  induction n with
  | zero =>
    intro u d hd _
    exact absurd hd (by have := sizeOf_value_pos d; omega)
  | succ n ih =>
    intro u d hsz hwf
    have h0 : ∀ b : Value, addDefaultValues Value.undefined b = b := by
      intro b; cases b <;> rfl
    cases u with
    | undefined =>
      rw [h0 d]
      exact mergeSelf d hwf
    | prim m =>
      have h1 : addDefaultValues (Value.prim m) d = Value.prim m := by
        cases d with
        | undefined => rfl
        | prim m2 => rfl
        | obj g bs => exact mergeEntries_nonObject bs _ rfl
      rw [h1, h1]
    | obj f es =>
      cases d with
      | undefined => rfl
      | prim m2 => rfl
      | obj g bs =>
        simp only [nodupDeep, Bool.and_eq_true] at hwf
        rw [show addDefaultValues (Value.obj f es) (Value.obj g bs)
          = mergeEntries (Value.obj f es) bs from rfl]
        have hr_obj : isObject (mergeEntries (Value.obj f es) bs) = true := by
          rw [isObject_mergeEntries]
          rfl
        obtain ⟨f2, es2, hr⟩ := exists_obj_of_isObject _ hr_obj
        rw [hr]
        rw [show addDefaultValues (Value.obj f2 es2) (Value.obj g bs)
          = mergeEntries (Value.obj f2 es2) bs from rfl]
        apply mergeEntries_fixed
        intro p hp
        obtain ⟨k, v⟩ := p
        have hgetd : getVal (Value.obj g bs) k = v := getKey_mem_nodup k v bs hwf.1 hp
        have hF := getVal_addDefaultValues (Value.obj f es) (Value.obj g bs) k rfl rfl
          (by simp only [topNodup]; exact hwf.1)
        rw [show addDefaultValues (Value.obj f es) (Value.obj g bs)
          = mergeEntries (Value.obj f es) bs from rfl, hr, hgetd] at hF
        unfold stepOne
        by_cases hcase1 : isUndef (getVal (Value.obj f es) k) = true
        · rw [if_pos hcase1] at hF
          by_cases hv : isUndef v = true
          · have cond1 : isUndef (getVal (Value.obj f2 es2) k) = true := by
              rw [hF]; exact hv
            rw [if_pos cond1, ← hF]
            have hhas : hasVal (Value.obj f2 es2) k = true := by
              rw [← hr]
              exact hasVal_mergeEntries_of_hasKey bs _ k rfl (hasKey_of_mem k v bs hp)
            exact setVal_getVal_self _ k rfl hhas
          · have cond1 : ¬ isUndef (getVal (Value.obj f2 es2) k) = true := by
              rw [hF]; exact hv
            rw [if_neg cond1]
            by_cases ho : isObject v = true
            · have cond2 : (isObject v && isObject (getVal (Value.obj f2 es2) k)) = true := by
                rw [hF, ho]; simp
              rw [if_pos cond2, hF, mergeSelf v (nodupDeep_of_mem bs k v hwf.2 hp), ← hF]
              have hhas : hasVal (Value.obj f2 es2) k = true :=
                hasVal_of_getVal_ne_undef _ k (by rw [hF]; simpa using hv)
              exact setVal_getVal_self _ k rfl hhas
            · have cond2 : ¬ (isObject v && isObject (getVal (Value.obj f2 es2) k)) = true := by
                simp [ho]
              rw [if_neg cond2]
        · rw [if_neg hcase1] at hF
          by_cases hcase2 : (isObject v && isObject (getVal (Value.obj f es) k)) = true
          · rw [if_pos hcase2] at hF
            have hand := hcase2
            simp only [Bool.and_eq_true] at hand
            have hobjv : isObject v = true := hand.1
            have hobju : isObject (getVal (Value.obj f es) k) = true := hand.2
            have hm_obj : isObject (addDefaultValues (getVal (Value.obj f es) k) v) = true :=
              isObject_addDefaultValues _ v hobju
            have hm_undef : isUndef (getVal (Value.obj f2 es2) k) = false := by
              rw [hF]; exact isUndef_of_isObject _ hm_obj
            rw [if_neg (by rw [hm_undef]; simp)]
            have cond2 : (isObject v && isObject (getVal (Value.obj f2 es2) k)) = true := by
              rw [hF, hobjv, hm_obj]; rfl
            rw [if_pos cond2, hF]
            have hidem : addDefaultValues
                (addDefaultValues (getVal (Value.obj f es) k) v) v
                = addDefaultValues (getVal (Value.obj f es) k) v := by
              apply ih
              · have := sizeOf_lt_of_mem_obj g bs k v hp
                omega
              · exact nodupDeep_of_mem bs k v hwf.2 hp
            rw [hidem, ← hF]
            have hhas : hasVal (Value.obj f2 es2) k = true :=
              hasVal_of_getVal_ne_undef _ k hm_undef
            exact setVal_getVal_self _ k rfl hhas
          · rw [if_neg hcase2] at hF
            rw [if_neg (show ¬ isUndef (getVal (Value.obj f2 es2) k) = true by
              rw [hF]; exact hcase1)]
            rw [if_neg (show ¬ (isObject v && isObject (getVal (Value.obj f2 es2) k)) = true by
              rw [hF]; exact hcase2)]

/-- Arrays are defined values. -/
theorem isUndef_of_isArrayV (x : Value) (h : isArrayV x = true) : isUndef x = false := by
  cases x with
  | undefined => cases h
  | prim n => cases h
  | obj b es => rfl

/-! ## Claim C6: idempotence of the default merge -/

/-- Claim C6: the default-merge is idempotent: for any nested
configuration objects `u` and `d` (well-formed, i.e. without the
duplicate keys JavaScript objects cannot have anyway),
`merge(merge(u, d), d)` is structurally identical to `merge(u, d)`. -/
theorem claim_C6_merge_idempotent (u d : Value) (h : nodupDeep d = true) :
    addDefaultValues (addDefaultValues u d) d = addDefaultValues u d :=
  mergeIdem_bounded (sizeOf d) u d (Nat.le_refl _) h

/-- Concrete instance of claim C6 on a nested configuration. -/
theorem claim_C6_witness :
    addDefaultValues
        (addDefaultValues (Value.obj false [("a", Value.prim 1)])
          (Value.obj false
            [("a", Value.prim 2), ("b", Value.obj false [("c", Value.prim 3)])]))
        (Value.obj false
          [("a", Value.prim 2), ("b", Value.obj false [("c", Value.prim 3)])])
      = addDefaultValues (Value.obj false [("a", Value.prim 1)])
          (Value.obj false
            [("a", Value.prim 2), ("b", Value.obj false [("c", Value.prim 3)])]) :=
  claim_C6_merge_idempotent (Value.obj false [("a", Value.prim 1)])
    (Value.obj false
      [("a", Value.prim 2), ("b", Value.obj false [("c", Value.prim 3)])])
    (by rfl)

/-! ## Claim C5: user values and completeness of the merge -/

/-- Claim C5 fails as stated: a key `"a"` present and defined in `u`
(holding the object `{x: 1}`) does not keep its original value -- the
nested merge extends it with the default's key `"y"`. -/
theorem claim_C5_counterexample :
    getVal (addDefaultValues
        (Value.obj false [("a", Value.obj false [("x", Value.prim 1)])])
        (Value.obj false [("a", Value.obj false [("y", Value.prim 2)])])) "a"
      ≠ getVal (Value.obj false [("a", Value.obj false [("x", Value.prim 1)])]) "a" := by
  intro h
  have h2 : Value.obj false [("x", Value.prim 1), ("y", Value.prim 2)]
      = Value.obj false [("x", Value.prim 1)] := h
  simp at h2

/-- Claim C5 as amended: (1) every key holding a defined non-object
(primitive) value in `u`, at any nesting depth, reads the same after
the merge, regardless of `d`; keys of `u` holding objects are merged
recursively instead of being kept identical (which is all the
counterexample forces).  (2) every top-level key undefined in `u`
receives exactly `d[k]`. -/
theorem claim_C5_user_values_and_completeness :
    (∀ (u d : Value) (p : List String), nodupDeep d = true →
        isUndef (deepGet u p) = false → isObject (deepGet u p) = false →
        deepGet (addDefaultValues u d) p = deepGet u p) ∧
    (∀ (u d : Value) (k : String), isObject u = true → isObject d = true →
        topNodup d = true → isUndef (getVal u k) = true →
        getVal (addDefaultValues u d) k = getVal d k) := by
  constructor
  · intro u d p
    induction p generalizing u d with
    | nil =>
      intro _ h1 h2
      exact addDefaultValues_nonObject_left u d h1 h2
    | cons k rest ih =>
      intro hwf h1 h2
      by_cases hu : isObject u = true
      · by_cases hd : isObject d = true
        · have hF := getVal_addDefaultValues u d k hu hd (topNodup_of_nodupDeep d hwf)
          show deepGet (getVal (addDefaultValues u d) k) rest = deepGet (getVal u k) rest
          rw [hF]
          by_cases hc1 : isUndef (getVal u k) = true
          · exfalso
            have hgu : getVal u k = Value.undefined := isUndef_eq _ hc1
            rw [show deepGet u (k :: rest) = deepGet (getVal u k) rest from rfl,
              hgu, deepGet_undef] at h1
            cases h1
          · rw [if_neg hc1]
            by_cases hc2 : (isObject (getVal d k) && isObject (getVal u k)) = true
            · rw [if_pos hc2]
              exact ih (getVal u k) (getVal d k) (nodupDeep_getVal d k hwf) h1 h2
            · rw [if_neg hc2]
        · rw [addDefaultValues_nonObject_right u d (isUndef_of_isObject u hu)
            (by simpa using hd)]
      · by_cases hundef : isUndef u = true
        · exfalso
          have hU : u = Value.undefined := isUndef_eq u hundef
          rw [hU, deepGet_undef] at h1
          cases h1
        · rw [addDefaultValues_nonObject_left u d (by simpa using hundef)
            (by simpa using hu)]
  · intro u d k hu hd hnd hkundef
    rw [getVal_addDefaultValues u d k hu hd hnd, if_pos hkundef]

/-- Concrete instance of claim C5 as amended: a defined primitive at
path `["a"]` survives the merge, and the key `"b"` missing from the
user object receives the default. -/
theorem claim_C5_witness :
    deepGet (addDefaultValues (Value.obj false [("a", Value.prim 7)])
        (Value.obj false [("a", Value.prim 9), ("b", Value.prim 3)])) ["a"]
      = deepGet (Value.obj false [("a", Value.prim 7)]) ["a"] ∧
    getVal (addDefaultValues (Value.obj false [("a", Value.prim 7)])
        (Value.obj false [("a", Value.prim 9), ("b", Value.prim 3)])) "b"
      = getVal (Value.obj false [("a", Value.prim 9), ("b", Value.prim 3)]) "b" :=
  ⟨claim_C5_user_values_and_completeness.1
      (Value.obj false [("a", Value.prim 7)])
      (Value.obj false [("a", Value.prim 9), ("b", Value.prim 3)])
      ["a"] (by rfl) (by rfl) (by rfl),
    claim_C5_user_values_and_completeness.2
      (Value.obj false [("a", Value.prim 7)])
      (Value.obj false [("a", Value.prim 9), ("b", Value.prim 3)])
      "b" (by rfl) (by rfl) (by rfl) (by rfl)⟩

/-! ## Claim C1: array handling of the merge -/

/-- Claim C1 fails as stated: with `u.k = []` and `d.k = [5]` (both
arrays), the merge does not leave `u.k` equal to its original value --
`isObject` accepts arrays, so the merge recurses into them and fills
index `"0"` from the defaults array. -/
theorem claim_C1_counterexample :
    isArrayV (getVal (Value.obj false [("k", Value.obj true [])]) "k") = true ∧
    isArrayV (getVal
        (Value.obj false [("k", Value.obj true [("0", Value.prim 5)])]) "k") = true ∧
    getVal (addDefaultValues (Value.obj false [("k", Value.obj true [])])
        (Value.obj false [("k", Value.obj true [("0", Value.prim 5)])])) "k"
      ≠ getVal (Value.obj false [("k", Value.obj true [])]) "k" := by
  refine ⟨rfl, rfl, ?_⟩
  intro h
  have h2 : Value.obj true [("0", Value.prim 5)] = Value.obj true [] := h
  simp at h2

/-- Claim C1 as amended: when both `u[k]` and `d[k]` are arrays, the
merge recurses into them exactly as for plain objects (the source's
`isObject` treats arrays as objects), merging them element-wise by
index; `u[k]` is only left unchanged in the special cases that fall out
of that recursion (e.g. `u[k]` defined at every index of `d[k]`).  A
defaults array is still assigned wholesale when the user key is
undefined (second conjunct, from the undefined branch of the merge). -/
theorem claim_C1_arrays_merged_elementwise :
    (∀ (u d : Value) (k : String), isObject u = true → isObject d = true →
        topNodup d = true → isArrayV (getVal u k) = true →
        isArrayV (getVal d k) = true →
        getVal (addDefaultValues u d) k
          = addDefaultValues (getVal u k) (getVal d k)) ∧
    (∀ (u d : Value) (k : String), isObject u = true → isObject d = true →
        topNodup d = true → isUndef (getVal u k) = true →
        getVal (addDefaultValues u d) k = getVal d k) := by
  constructor
  · intro u d k hu hd hnd hau had
    rw [getVal_addDefaultValues u d k hu hd hnd,
      if_neg (by rw [isUndef_of_isArrayV _ hau]; simp),
      if_pos (by rw [isObject_of_isArrayV _ hau, isObject_of_isArrayV _ had]; rfl)]
  · intro u d k hu hd hnd hkundef
    rw [getVal_addDefaultValues u d k hu hd hnd, if_pos hkundef]

/-- Concrete instance of claim C1 as amended: `u.k = [1]` and
`d.k = [9, 2]` merge element-wise to `[1, 2]`. -/
theorem claim_C1_witness :
    getVal (addDefaultValues
        (Value.obj false [("k", Value.obj true [("0", Value.prim 1)])])
        (Value.obj false
          [("k", Value.obj true [("0", Value.prim 9), ("1", Value.prim 2)])])) "k"
      = addDefaultValues
          (getVal (Value.obj false [("k", Value.obj true [("0", Value.prim 1)])]) "k")
          (getVal (Value.obj false
            [("k", Value.obj true [("0", Value.prim 9), ("1", Value.prim 2)])]) "k") :=
  claim_C1_arrays_merged_elementwise.1
    (Value.obj false [("k", Value.obj true [("0", Value.prim 1)])])
    (Value.obj false
      [("k", Value.obj true [("0", Value.prim 9), ("1", Value.prim 2)])])
    "k" (by rfl) (by rfl) (by rfl) (by rfl) (by rfl)
